import Mathlib

/-!
Verification of `tools/convert_step.py`, a batch STEP→STL converter.

The script's own logic is (a) the filename sanitizer `slugify` and (b) the
conversion pipeline driver (`iter_step_files`, `read_step`, `scale_shape`,
`mesh_shape`, `export_stl`, `convert`, `main`).  The OpenCascade kernel the
script calls into is external; it is embedded as an abstract capability
structure `Kernel` whose fields stand for the kernel's read status, the
imported shape, the transform-and-rebuild primitive, the in-place mesher
(modelled by explicit state passing) and the STL writer's success flag.
Unicode NFKD normalisation (`unicodedata.normalize('NFKD', ·)`) is likewise
external; `slugify` takes it as a function parameter `nfkd`.
Strings are modelled on their character lists; the float literals 0.001 and
0.5, which the script only passes through to the kernel, are modelled as the
exact rationals 1/1000 and 1/2.
-/

namespace ConvertStep

/-! ## Name sanitizer (`slugify`, source lines 72–77) -/

/-- Characters kept by `.encode('ascii', 'ignore')`: code points below 128. -/
def isAsciiChar (c : Char) : Bool := c.toNat < 128

/-- The character class `[a-z0-9._-]` of the keep-regex in `slugify`. -/
def isSlugChar (c : Char) : Bool :=
  (97 ≤ c.toNat && c.toNat ≤ 122) || (48 ≤ c.toNat && c.toNat ≤ 57) ||
    c == '.' || c == '_' || c == '-'

def isHyphen (c : Char) : Bool := c == '-'

/-- `NFKD(name).encode('ascii', 'ignore').decode('ascii')`: drop every
character with no ASCII code point (the NFKD step itself is the `nfkd`
parameter of `slugify`). -/
def asciiIgnore (l : List Char) : List Char := l.filter isAsciiChar

/-- `.replace(' ', '-')`. -/
def replaceSpace (l : List Char) : List Char :=
  l.map (fun c => if c = ' ' then '-' else c)

/-- `.lower()` on an ASCII string: per-character basic-latin lowering. -/
def lowerAll (l : List Char) : List Char := l.map Char.toLower

/-- `re.sub(r'[^a-z0-9._-]', '', ·)`. -/
def keepSlug (l : List Char) : List Char := l.filter isSlugChar

/-- `re.sub(r'-{2,}', '-', ·)`: every maximal run of hyphens is emitted as a
single hyphen.  `prevHyphen` records whether the previous input character was
a hyphen whose run has already emitted its representative. -/
def collapseGo : Bool → List Char → List Char
  | _, [] => []
  | prevHyphen, c :: rest =>
    if c = '-' then
      if prevHyphen then collapseGo true rest
      else '-' :: collapseGo true rest
    else c :: collapseGo false rest

def collapseHyphens (l : List Char) : List Char := collapseGo false l

/-- `.strip('-')`: drop leading and trailing hyphens. -/
def stripHyphens (l : List Char) : List Char :=
  ((l.dropWhile isHyphen).reverse.dropWhile isHyphen).reverse

/-- The chain of rewrites in the body of `slugify` after NFKD, before the
final `or 'converted'` fallback. -/
def slugifyCore (l : List Char) : List Char :=
  stripHyphens (collapseHyphens (keepSlug (lowerAll (replaceSpace (asciiIgnore l)))))

/-- The body of `slugify` after NFKD, on character lists (`or 'converted'`
substitutes the fallback for an empty result). -/
def slugifyList (l : List Char) : List Char :=
  if slugifyCore l = [] then "converted".data else slugifyCore l

/-- `slugify(name)` (source lines 72–77), parameterised by the external NFKD
normalisation. -/
def slugify (nfkd : String → String) (name : String) : String :=
  ⟨slugifyList (nfkd name).data⟩

/-! ## Pipeline driver (source lines 24–97)

The external OpenCascade kernel is a black box with the success/failure
contracts of spec §4.1; `Kernel` abstracts it.  Per-file state (the shape
handle, which the script rebinds on scaling and which the mesher mutates in
place) is passed explicitly: `scaled` is the transform-and-rebuild primitive
(`BRepBuilderAPI_Transform(...).Shape()`), `meshed s lin ang` is the state of
shape `s` after `BRepMesh_IncrementalMesh(s, lin, True, ang, True).Perform()`.
-/

structure Kernel (S : Type) where
  readStatus : String → Int
  shapeOf : String → S
  scaled : S → ℚ → S
  meshed : S → ℚ → ℚ → S
  writeOk : S → String → Bool

def INPUT_DIR : String := "_input/neu"

def OUTPUT_DIR : String := "public/3d/converted"

/-- The literal `0.001` passed to `scale_shape` (`# mm → m`). -/
def scaleFactor : ℚ := 1 / 1000

/-- The default `linear_deflection=0.5` of `mesh_shape`. -/
def linDeflection : ℚ := 1 / 2

/-- The default `angular_deflection=0.5` of `mesh_shape`. -/
def angDeflection : ℚ := 1 / 2

/-- Glob `*.STP` on a directory-entry name: case-sensitive match of any name
ending in `.STP` (pathlib's glob does not treat leading dots specially). -/
def globSTP (n : String) : Bool := List.isSuffixOf ".STP".data n.data

/-- Lexicographic code-point comparison of character lists, the order Python
uses to compare the path strings in `sorted(...)`. -/
def charListLe : List Char → List Char → Bool
  | [], _ => true
  | _ :: _, [] => false
  | a :: as, b :: bs =>
    if a < b then true else if b < a then false else charListLe as bs

/-- Insert a string into a list sorted by `charListLe`. -/
def ordIns (a : String) : List String → List String
  | [] => [a]
  | b :: l => if charListLe a.data b.data then a :: b :: l else b :: ordIns a l

/-- `sorted(...)` on path strings sharing the directory component: stable
insertion sort by the lexicographic string order (for a total antisymmetric
order the sorted permutation is unique, so this is extensionally Python's
sort). -/
def sortStrings : List String → List String
  | [] => []
  | a :: l => ordIns a (sortStrings l)

/-- `iter_step_files` (source lines 27–28): the directory's entries matching
`*.STP`, sorted.  `entries` are the names in the scanned directory; sorting
paths that share the directory prefix orders them by these names. -/
def iter_step_files (entries : List String) : List String :=
  sortStrings (entries.filter globSTP)

/-- `Path(name).stem` for the names the driver feeds to `convert`: the final
component without its suffix.  A lone leading dot is not a suffix, so `".STP"`
is its own stem; any other name ending in `.STP` drops those four characters;
a name with no `.STP` ending keeps everything after the last dot removed —
the driver only ever applies this to globbed names, which end in `.STP`. -/
def stemOf (n : String) : String :=
  if globSTP n ∧ n ≠ ".STP" then ⟨n.data.take (n.data.length - 4)⟩ else n

/-- `read_step` (source lines 31–37): fail unless the read status is
`IFSelect_RetDone` (= 1), else transfer roots and return the one shape. -/
def read_step (K : Kernel S) (path : String) : Except String S :=
  let status := K.readStatus path
  if status ≠ 1 then
    Except.error ("Failed to read STEP file " ++ path ++ ": status " ++ toString status)
  else Except.ok (K.shapeOf path)

/-- `mesh_shape` (source lines 40–42) with its default deflections: the shape
after the in-place incremental meshing. -/
def mesh_shape (K : Kernel S) (shape : S) : S :=
  K.meshed shape linDeflection angDeflection

/-- `scale_shape` (source lines 45–49): transform-and-rebuild, returning the
new shape. -/
def scale_shape (K : Kernel S) (shape : S) (factor : ℚ) : S :=
  K.scaled shape factor

/-- `export_stl` (source lines 52–56): fail when the writer reports failure. -/
def export_stl (K : Kernel S) (shape : S) (target : String) : Except String Unit :=
  if K.writeOk shape target then Except.ok ()
  else Except.error ("Failed to write STL to " ++ target)

/-- Trace of the kernel operations `convert` performs after a successful read:
which shape was scaled (and into what), which shape state was meshed, and
which shape state was handed to the writer. -/
inductive Event (S : Type) where
  | scaleEv : S → ℚ → S → Event S
  | meshEv : S → ℚ → ℚ → Event S
  | writeEv : S → String → Event S

def isScaleEv : Event S → Bool
  | Event.scaleEv _ _ _ => true
  | _ => false

/-- `convert` (source lines 59–69), instrumented with the trace of kernel
operations.  Returns the printed/returned target path on success. -/
def convert (K : Kernel S) (nfkd : String → String) (stepPath : String)
    (keep_millimetre : Bool) : Except String String × List (Event S) :=
  match read_step K stepPath with
  | Except.error e => (Except.error e, [])
  | Except.ok shape0 =>
    let shape := if keep_millimetre then shape0 else scale_shape K shape0 scaleFactor
    let scaleTrace : List (Event S) :=
      if keep_millimetre then []
      else [Event.scaleEv shape0 scaleFactor (scale_shape K shape0 scaleFactor)]
    let meshedShape := mesh_shape K shape
    let filename := slugify nfkd (stemOf stepPath) ++ ".stl"
    let target := OUTPUT_DIR ++ "/" ++ filename
    let tr := scaleTrace ++ [Event.meshEv shape linDeflection angDeflection,
                             Event.writeEv meshedShape target]
    (match export_stl K meshedShape target with
     | Except.error e => Except.error e
     | Except.ok _ => Except.ok target, tr)

/-- `print(f"Converted \x7bstep_file.name\x7d → \x7btarget\x7d")`. -/
def convertedLine (name target : String) : String :=
  "Converted " ++ name ++ " → " ++ target

/-- `print(f"[ERROR] \x7bstep_file.name\x7d: \x7bexc\x7d")`. -/
def errorLine (name msg : String) : String :=
  "[ERROR] " ++ name ++ ": " ++ msg

def isErrorLine (l : String) : Bool := List.isPrefixOf "[ERROR] ".data l.data

/-- The one diagnostic line the batch loop prints for file `f`. -/
def lineFor (K : Kernel S) (nfkd : String → String) (keep : Bool) (f : String) : String :=
  match (convert K nfkd f keep).1 with
  | Except.ok t => convertedLine f t
  | Except.error e => errorLine f e

/-- The output target file `f` contributes, if its conversion succeeds. -/
def outputFor (K : Kernel S) (nfkd : String → String) (keep : Bool) (f : String) :
    Option String :=
  match (convert K nfkd f keep).1 with
  | Except.ok t => some t
  | Except.error _ => none

/-- The `for step_file in step_files` loop of `main` (source lines 92–97):
per file, one diagnostic line; outputs accumulate only for successes; an
exception in `convert` is caught and the loop continues. -/
def runBatch (K : Kernel S) (nfkd : String → String) (keep : Bool) :
    List String → List String × List String
  | [] => ([], [])
  | f :: rest =>
    let acc := runBatch K nfkd keep rest
    match (convert K nfkd f keep).1 with
    | Except.ok t => (convertedLine f t :: acc.1, t :: acc.2)
    | Except.error e => (errorLine f e :: acc.1, acc.2)

/-- `main` (source lines 80–97): diagnostic lines and produced outputs, given
the entry names of `INPUT_DIR`. -/
def main (K : Kernel S) (nfkd : String → String) (keep : Bool)
    (entries : List String) : List String × List String :=
  let step_files := iter_step_files entries
  if step_files = [] then (["No STEP files found in " ++ INPUT_DIR], [])
  else runBatch K nfkd keep step_files

/-- A concrete kernel over the one-point shape type, for evaluating the
driver: reading `bad.STP` reports status 0, every other read succeeds, and
the writer always succeeds. -/
def testKernel : Kernel Unit where
  readStatus := fun p => if p = "bad.STP" then 0 else 1
  shapeOf := fun _ => ()
  scaled := fun s _ => s
  meshed := fun s _ _ => s
  writeOk := fun _ _ => true

/-! ## Sanitizer lemmas -/

/-- No two consecutive characters are both hyphens. -/
def HyphenSeparated (l : List Char) : Prop :=
  l.Chain' (fun a b => ¬(a = '-' ∧ b = '-'))

theorem slugChar_ascii (c : Char) (h : isSlugChar c = true) : isAsciiChar c = true := by
  simp only [isSlugChar, Bool.or_eq_true, Bool.and_eq_true, decide_eq_true_eq,
    beq_iff_eq] at h
  simp only [isAsciiChar, decide_eq_true_eq]
  rcases h with ((((h | h) | rfl) | rfl) | rfl)
  · omega
  · omega
  · decide
  · decide
  · decide

theorem slugChar_ne_space (c : Char) (h : isSlugChar c = true) : c ≠ ' ' := by
  intro he
  subst he
  simp [isSlugChar] at h

theorem toLower_eq_self_of (c : Char) (h : ¬(65 ≤ c.toNat ∧ c.toNat ≤ 90)) :
    c.toLower = c := by
  have hdef : Char.toLower c =
      if c.toNat ≥ 65 ∧ c.toNat ≤ 90 then Char.ofNat (c.toNat + 32) else c := rfl
  rw [hdef, if_neg (by omega)]

theorem slugChar_toLower (c : Char) (h : isSlugChar c = true) : c.toLower = c := by
  simp only [isSlugChar, Bool.or_eq_true, Bool.and_eq_true, decide_eq_true_eq,
    beq_iff_eq] at h
  rcases h with ((((h | h) | rfl) | rfl) | rfl)
  · exact toLower_eq_self_of c (by omega)
  · exact toLower_eq_self_of c (by omega)
  · decide
  · decide
  · decide

theorem collapseGo_true_head (l : List Char) :
    ∀ c, (collapseGo true l).head? = some c → c ≠ '-' := by
  induction l with
  | nil => intro c hc; simp [collapseGo] at hc
  | cons a rest ih =>
    intro c hc
    by_cases ha : a = '-'
    · rw [show collapseGo true (a :: rest) = collapseGo true rest by
        simp [collapseGo, ha]] at hc
      exact ih c hc
    · rw [show collapseGo true (a :: rest) = a :: collapseGo false rest by
        simp [collapseGo, ha]] at hc
      simp only [List.head?_cons, Option.some.injEq] at hc
      exact hc ▸ ha

theorem collapseGo_chain (b : Bool) (l : List Char) : HyphenSeparated (collapseGo b l) := by
  induction l generalizing b with
  | nil => simp [collapseGo, HyphenSeparated]
  | cons a rest ih =>
    by_cases ha : a = '-'
    · cases b with
      | true =>
        rw [show collapseGo true (a :: rest) = collapseGo true rest by simp [collapseGo, ha]]
        exact ih true
      | false =>
        rw [show collapseGo false (a :: rest) = '-' :: collapseGo true rest by
          simp [collapseGo, ha]]
        refine List.chain'_cons'.mpr ⟨?_, ih true⟩
        intro y hy hcontra
        exact collapseGo_true_head rest y (Option.mem_def.mp hy) hcontra.2
    · have heq : collapseGo b (a :: rest) = a :: collapseGo false rest := by
        cases b <;> simp [collapseGo, ha]
      rw [heq]
      refine List.chain'_cons'.mpr ⟨?_, ih false⟩
      intro y _ hcontra
      exact ha hcontra.1

theorem collapseGo_charset (P : Char → Bool) (hP : P '-' = true) :
    ∀ (b : Bool) (l : List Char), (∀ c ∈ l, P c = true) →
      ∀ c ∈ collapseGo b l, P c = true := by
  intro b l
  induction l generalizing b with
  | nil => intro _ c hc; simp [collapseGo] at hc
  | cons a rest ih =>
    intro hl c hc
    have hrest : ∀ c ∈ rest, P c = true := fun c hc => hl c (List.mem_cons_of_mem _ hc)
    by_cases ha : a = '-'
    · cases b with
      | true =>
        rw [show collapseGo true (a :: rest) = collapseGo true rest by
          simp [collapseGo, ha]] at hc
        exact ih true hrest c hc
      | false =>
        rw [show collapseGo false (a :: rest) = '-' :: collapseGo true rest by
          simp [collapseGo, ha]] at hc
        rcases List.mem_cons.mp hc with h | h
        · exact h ▸ hP
        · exact ih true hrest c h
    · have heq : collapseGo b (a :: rest) = a :: collapseGo false rest := by
        cases b <;> simp [collapseGo, ha]
      rw [heq] at hc
      rcases List.mem_cons.mp hc with h | h
      · exact h ▸ hl a (List.mem_cons_self a rest)
      · exact ih false hrest c h

theorem collapseGo_eq_self (l : List Char) (h : HyphenSeparated l) :
    collapseGo false l = l ∧
      ((∀ c, l.head? = some c → c ≠ '-') → collapseGo true l = l) := by
  induction l with
  | nil => exact ⟨rfl, fun _ => rfl⟩
  | cons a rest ih =>
    have hparts := List.chain'_cons'.mp h
    obtain ⟨ih1, ih2⟩ := ih hparts.2
    by_cases ha : a = '-'
    · have hresthead : ∀ c, rest.head? = some c → c ≠ '-' := by
        intro c hc hcontra
        exact hparts.1 c (Option.mem_def.mpr hc) ⟨ha, hcontra⟩
      constructor
      · rw [show collapseGo false (a :: rest) = '-' :: collapseGo true rest by
          simp [collapseGo, ha]]
        rw [ih2 hresthead, ha]
      · intro hh
        exact absurd (hh a (by simp)) (by simp [ha])
    · have heq : ∀ b, collapseGo b (a :: rest) = a :: collapseGo false rest := by
        intro b; cases b <;> simp [collapseGo, ha]
      exact ⟨by rw [heq false, ih1], fun _ => by rw [heq true, ih1]⟩

theorem exists_append_dropWhile (p : Char → Bool) (l : List Char) :
    ∃ t, t ++ l.dropWhile p = l := by
  induction l with
  | nil => exact ⟨[], rfl⟩
  | cons a rest ih =>
    by_cases h : p a
    · obtain ⟨t, ht⟩ := ih
      exact ⟨a :: t, by simp [List.dropWhile_cons, h, ht]⟩
    · exact ⟨[], by simp [List.dropWhile_cons, h]⟩

theorem head?_dropWhile_ne (p : Char → Bool) (l : List Char) :
    ∀ c, (l.dropWhile p).head? = some c → p c = false := by
  induction l with
  | nil => intro c hc; simp at hc
  | cons a rest ih =>
    intro c hc
    by_cases h : p a
    · rw [show (a :: rest).dropWhile p = rest.dropWhile p by simp [List.dropWhile_cons, h]] at hc
      exact ih c hc
    · rw [show (a :: rest).dropWhile p = a :: rest by simp [List.dropWhile_cons, h]] at hc
      simp only [List.head?_cons, Option.some.injEq] at hc
      subst hc
      exact Bool.of_not_eq_true h

theorem dropWhile_eq_self_of_head (p : Char → Bool) (l : List Char)
    (h : ∀ c, l.head? = some c → p c = false) : l.dropWhile p = l := by
  cases l with
  | nil => rfl
  | cons a rest =>
    have := h a (by simp)
    simp [List.dropWhile_cons, this]

theorem mem_of_mem_dropWhile (p : Char → Bool) (l : List Char) (c : Char)
    (h : c ∈ l.dropWhile p) : c ∈ l := by
  obtain ⟨t, ht⟩ := exists_append_dropWhile p l
  rw [← ht]
  exact List.mem_append_right t h

theorem chain_dropWhile (p : Char → Bool) (l : List Char) (h : HyphenSeparated l) :
    HyphenSeparated (l.dropWhile p) := by
  induction l with
  | nil => exact h
  | cons a rest ih =>
    by_cases hp : p a
    · rw [show (a :: rest).dropWhile p = rest.dropWhile p by simp [List.dropWhile_cons, hp]]
      exact ih (List.Chain'.tail h)
    · rw [show (a :: rest).dropWhile p = a :: rest by simp [List.dropWhile_cons, hp]]
      exact h

theorem chain_reverse (l : List Char) (h : HyphenSeparated l) :
    HyphenSeparated l.reverse := by
  unfold HyphenSeparated at *
  rw [List.chain'_reverse]
  exact h.imp (fun a b hab hcontra => hab ⟨hcontra.2, hcontra.1⟩)

theorem stripHyphens_head (l : List Char) :
    ∀ c, (stripHyphens l).head? = some c → c ≠ '-' := by
  intro c hc
  unfold stripHyphens at hc
  obtain ⟨t, ht⟩ := exists_append_dropWhile isHyphen (l.dropWhile isHyphen).reverse
  cases hBr : ((l.dropWhile isHyphen).reverse.dropWhile isHyphen).reverse with
  | nil => rw [hBr] at hc; simp at hc
  | cons x xs =>
    rw [hBr] at hc
    simp only [List.head?_cons, Option.some.injEq] at hc
    subst hc
    have hA : l.dropWhile isHyphen =
        ((l.dropWhile isHyphen).reverse.dropWhile isHyphen).reverse ++ t.reverse := by
      have h2 := congrArg List.reverse ht
      simpa [List.reverse_append] using h2.symm
    rw [hBr] at hA
    have hhead : (l.dropWhile isHyphen).head? = some x := by rw [hA]; simp
    have hfalse := head?_dropWhile_ne isHyphen l x hhead
    simpa [isHyphen] using hfalse

theorem stripHyphens_last (l : List Char) :
    ∀ c, (stripHyphens l).getLast? = some c → c ≠ '-' := by
  intro c hc
  unfold stripHyphens at hc
  rw [List.getLast?_eq_head?_reverse, List.reverse_reverse] at hc
  have hfalse := head?_dropWhile_ne isHyphen (l.dropWhile isHyphen).reverse c hc
  simpa [isHyphen] using hfalse

theorem stripHyphens_chain (l : List Char) (h : HyphenSeparated l) :
    HyphenSeparated (stripHyphens l) :=
  chain_reverse _ (chain_dropWhile _ _ (chain_reverse _ (chain_dropWhile _ _ h)))

theorem mem_stripHyphens (l : List Char) (c : Char) (h : c ∈ stripHyphens l) : c ∈ l := by
  unfold stripHyphens at h
  rw [List.mem_reverse] at h
  have h2 := mem_of_mem_dropWhile _ _ _ h
  rw [List.mem_reverse] at h2
  exact mem_of_mem_dropWhile _ _ _ h2

theorem stripHyphens_eq_self (l : List Char)
    (h1 : ∀ c, l.head? = some c → c ≠ '-')
    (h2 : ∀ c, l.getLast? = some c → c ≠ '-') : stripHyphens l = l := by
  unfold stripHyphens
  have e1 : l.dropWhile isHyphen = l := by
    apply dropWhile_eq_self_of_head
    intro c hc
    simpa [isHyphen] using h1 c hc
  rw [e1]
  have e2 : l.reverse.dropWhile isHyphen = l.reverse := by
    apply dropWhile_eq_self_of_head
    intro c hc
    rw [← List.getLast?_eq_head?_reverse] at hc
    simpa [isHyphen] using h2 c hc
  rw [e2, List.reverse_reverse]

/-! ## Invariants and fixed points of `slugifyList` -/

theorem slugifyList_charset (l : List Char) : ∀ c ∈ slugifyList l, isSlugChar c = true := by
  intro c hc
  unfold slugifyList at hc
  by_cases hd : slugifyCore l = []
  · rw [if_pos hd] at hc
    revert hc
    revert c
    decide
  · rw [if_neg hd] at hc
    have h2 := mem_stripHyphens _ _ hc
    exact collapseGo_charset isSlugChar (by decide) false _
      (fun c hc => (List.mem_filter.mp hc).2) c h2

theorem slugifyList_chain (l : List Char) : HyphenSeparated (slugifyList l) := by
  unfold slugifyList
  by_cases hd : slugifyCore l = []
  · rw [if_pos hd]
    show List.Chain (fun a b => ¬(a = '-' ∧ b = '-')) 'c' ['o', 'n', 'v', 'e', 'r', 't', 'e', 'd']
    refine List.Chain.cons (by decide) (List.Chain.cons (by decide) (List.Chain.cons (by decide)
      (List.Chain.cons (by decide) (List.Chain.cons (by decide) (List.Chain.cons (by decide)
      (List.Chain.cons (by decide) (List.Chain.cons (by decide) List.Chain.nil)))))))
  · rw [if_neg hd]
    exact stripHyphens_chain _ (collapseGo_chain false _)

theorem slugifyList_head (l : List Char) :
    ∀ c, (slugifyList l).head? = some c → c ≠ '-' := by
  intro c hc
  unfold slugifyList at hc
  by_cases hd : slugifyCore l = []
  · rw [if_pos hd] at hc
    simp only [show ("converted".data).head? = some 'c' from rfl, Option.some.injEq] at hc
    subst hc
    decide
  · rw [if_neg hd] at hc
    exact stripHyphens_head _ c hc

theorem slugifyList_last (l : List Char) :
    ∀ c, (slugifyList l).getLast? = some c → c ≠ '-' := by
  intro c hc
  unfold slugifyList at hc
  by_cases hd : slugifyCore l = []
  · rw [if_pos hd] at hc
    simp only [show ("converted".data).getLast? = some 'd' from by decide,
      Option.some.injEq] at hc
    subst hc
    decide
  · rw [if_neg hd] at hc
    exact stripHyphens_last _ c hc

theorem slugifyList_ne_nil (l : List Char) : slugifyList l ≠ [] := by
  unfold slugifyList
  by_cases hd : slugifyCore l = []
  · rw [if_pos hd]; decide
  · rw [if_neg hd]; exact hd

theorem slugifyList_eq_self (m : List Char)
    (hchar : ∀ c ∈ m, isSlugChar c = true)
    (hchain : HyphenSeparated m)
    (hhead : ∀ c, m.head? = some c → c ≠ '-')
    (hlast : ∀ c, m.getLast? = some c → c ≠ '-')
    (hne : m ≠ []) : slugifyList m = m := by
  have e1 : asciiIgnore m = m :=
    List.filter_eq_self.mpr (fun c hc => slugChar_ascii c (hchar c hc))
  have e2 : replaceSpace m = m := by
    have hcongr : ∀ c ∈ m, (if c = ' ' then '-' else c) = id c := by
      intro c hc
      rw [if_neg (slugChar_ne_space c (hchar c hc))]
      rfl
    calc replaceSpace m = m.map id := List.map_congr_left hcongr
      _ = m := List.map_id m
  have e3 : lowerAll m = m := by
    have hcongr : ∀ c ∈ m, Char.toLower c = id c := fun c hc =>
      slugChar_toLower c (hchar c hc)
    calc lowerAll m = m.map id := List.map_congr_left hcongr
      _ = m := List.map_id m
  have e4 : keepSlug m = m := List.filter_eq_self.mpr hchar
  have e5 : collapseHyphens m = m := (collapseGo_eq_self m hchain).1
  have e6 : stripHyphens m = m := stripHyphens_eq_self m hhead hlast
  have ecore : slugifyCore m = m := by
    unfold slugifyCore
    rw [e1, e2, e3, e4, e5, e6]
  unfold slugifyList
  rw [ecore, if_neg hne]

theorem slugifyList_idem (l : List Char) : slugifyList (slugifyList l) = slugifyList l :=
  slugifyList_eq_self _ (slugifyList_charset l) (slugifyList_chain l)
    (slugifyList_head l) (slugifyList_last l) (slugifyList_ne_nil l)

/-! ## Claim theorems for the sanitizer -/

/-- C1: for every input string and every NFKD normalisation, the slug consists
solely of characters from `[a-z0-9._-]`, contains no two consecutive hyphens,
and neither starts nor ends with a hyphen. -/
theorem slugify_charset_and_hyphens (nfkd : String → String) (x : String) :
    (∀ c ∈ (slugify nfkd x).data, isSlugChar c = true) ∧
      HyphenSeparated (slugify nfkd x).data ∧
      (∀ c, (slugify nfkd x).data.head? = some c → c ≠ '-') ∧
      (∀ c, (slugify nfkd x).data.getLast? = some c → c ≠ '-') :=
  ⟨slugifyList_charset _, slugifyList_chain _, slugifyList_head _, slugifyList_last _⟩

/-- C1 witness: the charset and head invariants instantiated on the slug of
"A  B!", which is "a-b". -/
theorem slugify_charset_and_hyphens_witness : isSlugChar 'a' = true ∧ 'a' ≠ '-' :=
  ⟨(slugify_charset_and_hyphens (fun s => s) "A  B!").1 'a' (by decide),
   (slugify_charset_and_hyphens (fun s => s) "A  B!").2.2.1 'a' (by decide)⟩

/-- C5: when the NFKD-normalised input contains zero ASCII-representable
characters, `slugify` returns the fixed fallback name "converted". -/
theorem slugify_fallback (nfkd : String → String) (x : String)
    (h : (nfkd x).data.filter isAsciiChar = []) : slugify nfkd x = "converted" := by
  show (⟨slugifyList (nfkd x).data⟩ : String) = "converted"
  have hcore : slugifyCore (nfkd x).data = [] := by
    unfold slugifyCore asciiIgnore
    rw [h]
    rfl
  unfold slugifyList
  rw [hcore]
  rfl

/-- C5 witness: the stem "日本語" has no ASCII-representable content and
slugifies to "converted". -/
theorem slugify_fallback_witness : slugify (fun s => s) "日本語" = "converted" :=
  slugify_fallback _ _ (by decide)

/-- C6: the stem "Bracket Mount v2" slugifies to exactly "bracket-mount-v2"
(NFKD fixes this stem, which is pure ASCII). -/
theorem slugify_bracket_mount (nfkd : String → String)
    (h : nfkd "Bracket Mount v2" = "Bracket Mount v2") :
    slugify nfkd "Bracket Mount v2" = "bracket-mount-v2" := by
  unfold slugify
  rw [h]
  decide

/-- C6 witness: the scenario evaluated with the identity normalisation. -/
theorem slugify_bracket_mount_witness :
    slugify (fun s => s) "Bracket Mount v2" = "bracket-mount-v2" :=
  slugify_bracket_mount _ rfl

/-- C7: `slugify` is a pure, deterministic function: two evaluations on the
same input string return the same output string. -/
theorem slugify_deterministic (nfkd : String → String) (x y : String) (h : x = y) :
    slugify nfkd x = slugify nfkd y := by rw [h]

/-- C7 witness: determinism at a concrete input. -/
theorem slugify_deterministic_witness :
    slugify (fun s => s) "Part A" = slugify (fun s => s) "Part A" :=
  slugify_deterministic _ "Part A" "Part A" rfl

/-- C10: `slugify` is idempotent, for any NFKD normalisation that fixes ASCII
strings (as the real NFKD does: ASCII characters are their own compatibility
decompositions). -/
theorem slugify_idempotent (nfkd : String → String) (x : String)
    (h : ∀ s : String, (∀ c ∈ s.data, isAsciiChar c = true) → nfkd s = s) :
    slugify nfkd (slugify nfkd x) = slugify nfkd x := by
  have hascii : ∀ c ∈ (slugify nfkd x).data, isAsciiChar c = true := fun c hc =>
    slugChar_ascii c (slugifyList_charset (nfkd x).data c hc)
  show (⟨slugifyList (nfkd (slugify nfkd x)).data⟩ : String) = slugify nfkd x
  rw [h _ hascii]
  show (⟨slugifyList (slugifyList (nfkd x).data)⟩ : String) = slugify nfkd x
  rw [slugifyList_idem]
  rfl

/-- C10 witness: idempotence at a concrete input under the identity
normalisation. -/
theorem slugify_idempotent_witness :
    slugify (fun s => s) (slugify (fun s => s) "Bad  Näme!!") =
      slugify (fun s => s) "Bad  Näme!!" :=
  slugify_idempotent _ _ (fun _ _ => rfl)

/-! ## Claim theorems for the kernel boundary (`read_step`, `export_stl`) -/

/-- C3: `read_step` raises its read error, whose message names the file, if
and only if the kernel's read status is not `IFSelect_RetDone` (1); on status
1 it returns the imported shape. -/
theorem read_step_spec (S : Type) (K : Kernel S) (p : String) :
    (K.readStatus p = 1 → read_step K p = Except.ok (K.shapeOf p)) ∧
      (K.readStatus p ≠ 1 →
        ∃ msg, read_step K p = Except.error msg ∧
          ∃ pre suf, msg.data = pre ++ p.data ++ suf) ∧
      (∀ msg, read_step K p = Except.error msg → K.readStatus p ≠ 1) := by
  refine ⟨?_, ?_, ?_⟩
  · intro h
    simp only [read_step]
    rw [if_neg (by simp [h])]
  · intro h
    refine ⟨"Failed to read STEP file " ++ p ++ ": status " ++ toString (K.readStatus p),
      ?_, "Failed to read STEP file ".data,
      (": status " ++ toString (K.readStatus p)).data, ?_⟩
    · simp only [read_step]
      rw [if_pos h]
    · simp [String.data_append, List.append_assoc]
  · intro msg hmsg h1
    simp only [read_step] at hmsg
    rw [if_neg (by simp [h1])] at hmsg
    cases hmsg

/-- C3 witness: with the test kernel, the read status of "good.STP" is 1 and
`read_step` returns the imported shape. -/
theorem read_step_spec_witness : read_step testKernel "good.STP" = Except.ok () :=
  (read_step_spec Unit testKernel "good.STP").1 (by decide)

/-- C8: `export_stl` raises its write error, whose message names the target
path, if and only if the kernel's STL writer reports failure. -/
theorem export_stl_spec (S : Type) (K : Kernel S) (sh : S) (t : String) :
    (K.writeOk sh t = true → export_stl K sh t = Except.ok ()) ∧
      (K.writeOk sh t = false →
        export_stl K sh t = Except.error ("Failed to write STL to " ++ t) ∧
          ∃ pre suf, ("Failed to write STL to " ++ t).data = pre ++ t.data ++ suf) ∧
      (∀ msg, export_stl K sh t = Except.error msg → K.writeOk sh t = false) := by
  refine ⟨?_, ?_, ?_⟩
  · intro h
    unfold export_stl
    rw [if_pos h]
  · intro h
    refine ⟨?_, "Failed to write STL to ".data, [], ?_⟩
    · unfold export_stl
      rw [if_neg (by simp [h])]
    · simp [String.data_append]
  · intro msg hmsg
    by_contra hcontra
    have htrue : K.writeOk sh t = true := by
      simpa using hcontra
    unfold export_stl at hmsg
    rw [if_pos htrue] at hmsg
    cases hmsg

/-- C8 witness: with the always-succeeding test writer, the export returns
success. -/
theorem export_stl_spec_witness :
    export_stl testKernel () "public/3d/converted/x.stl" = Except.ok () :=
  (export_stl_spec Unit testKernel () "public/3d/converted/x.stl").1 rfl

/-- C4: after a successful read, with the flag unset `convert` scales the
imported shape by exactly 1/1000 (the literal 0.001) into the rebuilt shape
returned by the kernel's transform primitive, and that scale event strictly
precedes the mesh event, which receives the scaled shape; with the flag set
no scale event occurs and the mesh event receives the imported shape
unchanged. -/
theorem convert_scaling (S : Type) (K : Kernel S) (nfkd : String → String)
    (p : String) (s0 : S) (hread : read_step K p = Except.ok s0) :
    ((convert K nfkd p false).2.take 2 =
        [Event.scaleEv s0 scaleFactor (scale_shape K s0 scaleFactor),
         Event.meshEv (scale_shape K s0 scaleFactor) linDeflection angDeflection]) ∧
      (∀ e ∈ (convert K nfkd p true).2, isScaleEv e = false) ∧
      ((convert K nfkd p true).2.take 1 =
        [Event.meshEv s0 linDeflection angDeflection]) ∧
      scaleFactor = 1 / 1000 := by
  have hf : (convert K nfkd p false).2 =
      [Event.scaleEv s0 scaleFactor (scale_shape K s0 scaleFactor),
       Event.meshEv (scale_shape K s0 scaleFactor) linDeflection angDeflection,
       Event.writeEv (mesh_shape K (scale_shape K s0 scaleFactor))
         (OUTPUT_DIR ++ "/" ++ (slugify nfkd (stemOf p) ++ ".stl"))] := by
    simp [convert, hread]
  have ht : (convert K nfkd p true).2 =
      [Event.meshEv s0 linDeflection angDeflection,
       Event.writeEv (mesh_shape K s0)
         (OUTPUT_DIR ++ "/" ++ (slugify nfkd (stemOf p) ++ ".stl"))] := by
    simp [convert, hread]
  refine ⟨by rw [hf]; rfl, ?_, by rw [ht]; rfl, rfl⟩
  rw [ht]
  intro e he
  rcases List.mem_cons.mp he with rfl | he2
  · rfl
  rcases List.mem_cons.mp he2 with rfl | he3
  · rfl
  · cases he3

/-- C4 witness: the scaling trace at the test kernel. -/
theorem convert_scaling_witness :
    (convert testKernel (fun s => s) "good.STP" false).2.take 2 =
      [Event.scaleEv () scaleFactor (scale_shape testKernel () scaleFactor),
       Event.meshEv (scale_shape testKernel () scaleFactor) linDeflection angDeflection] :=
  (convert_scaling Unit testKernel (fun s => s) "good.STP" () rfl).1

/-! ## Batch loop lemmas -/

theorem runBatch_eq (K : Kernel S) (nfkd : String → String) (keep : Bool) :
    ∀ files : List String, runBatch K nfkd keep files =
      (files.map (lineFor K nfkd keep), files.filterMap (outputFor K nfkd keep)) := by
  intro files
  induction files with
  | nil => rfl
  | cons f rest ih =>
    cases hc : (convert K nfkd f keep).1 with
    | ok t => simp [runBatch, ih, lineFor, outputFor, hc, List.filterMap_cons]
    | error e => simp [runBatch, ih, lineFor, outputFor, hc, List.filterMap_cons]

theorem isPre_append (l t : List Char) : List.isPrefixOf l (l ++ t) = true := by
  induction l with
  | nil => simp
  | cons a as ih => simp [List.isPrefixOf_cons₂, ih]

theorem isPre_cons_false (a b : Char) (as bs : List Char) (h : a ≠ b) :
    List.isPrefixOf (a :: as) (b :: bs) = false := by
  simp [List.isPrefixOf_cons₂, h]

theorem isErrorLine_errorLine (n m : String) : isErrorLine (errorLine n m) = true := by
  unfold isErrorLine errorLine
  simp only [String.data_append, ← List.append_assoc]
  exact isPre_append "[ERROR] ".data (n.data ++ ": ".data ++ m.data)

theorem isErrorLine_convertedLine (n t : String) :
    isErrorLine (convertedLine n t) = false := by
  unfold isErrorLine convertedLine
  simp only [String.data_append, List.cons_append]
  exact isPre_cons_false '[' 'C' _ _ (by decide)

theorem errorLine_contains_name (n m : String) :
    ∃ pre suf, (errorLine n m).data = pre ++ n.data ++ suf := by
  refine ⟨"[ERROR] ".data, (": " ++ m).data, ?_⟩
  unfold errorLine
  simp [String.data_append, List.append_assoc]

/-- C2: the loop emits exactly one diagnostic line per input file, never
aborting on a failure; a failing file is reported by an error line holding
its name and the error message; and in the scenario of one failing plus one
succeeding file, exactly one output is produced and exactly one error line is
printed, containing the failing filename. -/
theorem batch_error_isolation (S : Type) (K : Kernel S) (nfkd : String → String)
    (keep : Bool) :
    (∀ files : List String, ((runBatch K nfkd keep files).1).length = files.length) ∧
      (∀ files : List String, ∀ f ∈ files, ∀ e,
        (convert K nfkd f keep).1 = Except.error e →
          errorLine f e ∈ (runBatch K nfkd keep files).1) ∧
      (∀ f g e t, (convert K nfkd f keep).1 = Except.error e →
        (convert K nfkd g keep).1 = Except.ok t →
          (runBatch K nfkd keep [f, g]).2 = [t] ∧
            ((runBatch K nfkd keep [f, g]).1).filter isErrorLine = [errorLine f e] ∧
            ∃ pre suf, (errorLine f e).data = pre ++ f.data ++ suf) := by
  refine ⟨?_, ?_, ?_⟩
  · intro files
    rw [runBatch_eq]
    simp
  · intro files f hf e he
    rw [runBatch_eq]
    refine List.mem_map.mpr ⟨f, hf, ?_⟩
    unfold lineFor
    rw [he]
  · intro f g e t he ht
    have hlf : lineFor K nfkd keep f = errorLine f e := by unfold lineFor; rw [he]
    have hlg : lineFor K nfkd keep g = convertedLine g t := by unfold lineFor; rw [ht]
    have hof : outputFor K nfkd keep f = none := by unfold outputFor; rw [he]
    have hog : outputFor K nfkd keep g = some t := by unfold outputFor; rw [ht]
    have h2 : runBatch K nfkd keep [f, g] = ([errorLine f e, convertedLine g t], [t]) := by
      rw [runBatch_eq]
      simp [hlf, hlg, hof, hog, List.filterMap_cons]
    refine ⟨by rw [h2], ?_, errorLine_contains_name f e⟩
    rw [h2]
    simp [List.filter_cons, isErrorLine_errorLine, isErrorLine_convertedLine]

/-- C2 witness: the scenario at the test kernel, where reading "bad.STP"
fails with status 0 and "good.STP" converts. -/
theorem batch_error_isolation_witness :
    (runBatch testKernel (fun s => s) false ["bad.STP", "good.STP"]).2 =
        ["public/3d/converted/good.stl"] ∧
      ((runBatch testKernel (fun s => s) false ["bad.STP", "good.STP"]).1).filter
          isErrorLine =
        [errorLine "bad.STP" "Failed to read STEP file bad.STP: status 0"] ∧
      ∃ pre suf,
        (errorLine "bad.STP" "Failed to read STEP file bad.STP: status 0").data =
          pre ++ "bad.STP".data ++ suf :=
  (batch_error_isolation Unit testKernel (fun s => s) false).2.2 "bad.STP" "good.STP"
    "Failed to read STEP file bad.STP: status 0" "public/3d/converted/good.stl" rfl rfl

/-! ## Sorting lemmas: `charListLe` agrees with the lexicographic order -/

theorem charListLe_iff (x : List Char) : ∀ y, charListLe x y = true ↔ ¬ List.lt y x := by
  induction x with
  | nil =>
    intro y
    constructor
    · intro _ h
      nomatch h
    · intro _
      rfl
  | cons a as ih =>
    intro y
    cases y with
    | nil =>
      rw [show charListLe (a :: as) [] = false from rfl]
      constructor
      · intro hft
        exact absurd hft Bool.false_ne_true
      · intro hnl
        exact absurd (List.lt.nil a as) hnl
    | cons b bs =>
      unfold charListLe
      by_cases h1 : a < b
      · rw [if_pos h1]
        refine ⟨fun _ hlt => ?_, fun _ => rfl⟩
        cases hlt with
        | head _ _ h => exact absurd h (lt_asymm h1)
        | tail hba hab _ => exact hab h1
      · rw [if_neg h1]
        by_cases h2 : b < a
        · rw [if_pos h2]
          refine ⟨fun hft => absurd hft Bool.false_ne_true,
            fun hnl => absurd (List.lt.head bs as h2) hnl⟩
        · rw [if_neg h2]
          rw [ih bs]
          constructor
          · intro hnl hlt
            cases hlt with
            | head _ _ h => exact h2 h
            | tail _ _ h3 => exact hnl h3
          · intro hnl hlt
            exact hnl (List.lt.tail h2 h1 hlt)

theorem string_lt_iff (a b : String) : a < b ↔ List.lt a.data b.data := by
  rw [String.lt_iff_toList_lt]
  exact (List.lt_iff_lex_lt a.data b.data).symm

theorem charListLe_iff_le (a b : String) : charListLe a.data b.data = true ↔ a ≤ b := by
  rw [charListLe_iff]
  constructor
  · intro h
    exact not_lt.mp (fun hba => h ((string_lt_iff b a).mp hba))
  · intro h hba
    exact absurd ((string_lt_iff b a).mpr hba) (not_lt.mpr h)

theorem ordIns_perm (a : String) : ∀ l, (ordIns a l).Perm (a :: l) := by
  intro l
  induction l with
  | nil => exact List.Perm.refl _
  | cons b rest ih =>
    unfold ordIns
    by_cases h : charListLe a.data b.data = true
    · rw [if_pos h]
    · rw [if_neg h]
      exact (List.Perm.cons b ih).trans (List.Perm.swap a b rest)

theorem ordIns_sorted (a : String) :
    ∀ l, List.Sorted (· ≤ ·) l → List.Sorted (· ≤ ·) (ordIns a l) := by
  intro l
  induction l with
  | nil =>
    intro _
    exact List.sorted_singleton a
  | cons b rest ih =>
    intro h
    rw [List.sorted_cons] at h
    unfold ordIns
    by_cases hab : charListLe a.data b.data = true
    · rw [if_pos hab]
      have hle := (charListLe_iff_le a b).mp hab
      rw [List.sorted_cons]
      refine ⟨?_, List.sorted_cons.mpr h⟩
      intro c hc
      rcases List.mem_cons.mp hc with rfl | hc2
      · exact hle
      · exact le_trans hle (h.1 c hc2)
    · rw [if_neg hab]
      have hba : b ≤ a := by
        rcases le_total a b with hh | hh
        · exact absurd ((charListLe_iff_le a b).mpr hh) hab
        · exact hh
      rw [List.sorted_cons]
      refine ⟨?_, ih h.2⟩
      intro c hc
      have hc2 : c ∈ a :: rest := (ordIns_perm a rest).mem_iff.mp hc
      rcases List.mem_cons.mp hc2 with rfl | hc3
      · exact hba
      · exact h.1 c hc3

theorem sortStrings_sorted : ∀ l, List.Sorted (· ≤ ·) (sortStrings l)
  | [] => List.sorted_nil
  | a :: l => ordIns_sorted a _ (sortStrings_sorted l)

theorem sortStrings_perm : ∀ l : List String, (sortStrings l).Perm l
  | [] => List.Perm.refl _
  | a :: l => (ordIns_perm a (sortStrings l)).trans (List.Perm.cons a (sortStrings_perm l))

/-- C9: `iter_step_files` returns exactly the directory entries matching the
case-sensitive glob `*.STP`, in ascending lexicographic (sorted) order, and
the driver's loop processes them strictly sequentially in that order: its
diagnostic list is the in-order map of the per-file line over that listing. -/
theorem iter_step_files_spec (entries : List String) :
    List.Sorted (· ≤ ·) (iter_step_files entries) ∧
      (iter_step_files entries).Perm (entries.filter globSTP) ∧
      (∀ n, n ∈ iter_step_files entries ↔ n ∈ entries ∧ globSTP n = true) ∧
      (∀ (S : Type) (K : Kernel S) (nfkd : String → String) (keep : Bool),
        (runBatch K nfkd keep (iter_step_files entries)).1 =
          (iter_step_files entries).map (lineFor K nfkd keep)) := by
  refine ⟨sortStrings_sorted _, sortStrings_perm _, ?_, ?_⟩
  · intro n
    rw [show iter_step_files entries = sortStrings (entries.filter globSTP) from rfl,
      (sortStrings_perm _).mem_iff, List.mem_filter]
  · intro S K nfkd keep
    rw [runBatch_eq]

/-- C9 witness: membership in the globbed, sorted listing of a concrete
directory. -/
theorem iter_step_files_spec_witness :
    "a.STP" ∈ iter_step_files ["b.STP", "a.STP", "x.txt"] :=
  ((iter_step_files_spec ["b.STP", "a.STP", "x.txt"]).2.2.1 "a.STP").mpr (by decide)

end ConvertStep
